import Mathlib

/-!
A shallow embedding of the core of the txspinneret request-dispatch library:
the route-matching algorithm (`txspinneret/route.py`), the content-negotiation
algorithm (`txspinneret/resource.py` and `txspinneret/util.py`) and the query
combinators (`txspinneret/query.py`).

Python values are modelled as follows: byte/text strings become `String`
(restricted to the ASCII fragment the library exercises, so decoding with any
encoding is the identity), `None` becomes `Option.none`, raised exceptions
become `Except.error`, Python's stable `sorted` becomes a stable insertion
sort, `OrderedDict` becomes an association list with in-place value update,
and IEEE floats produced by `float(...)` on decimal literals become exact
rationals (decimal-to-double conversion is monotone, so comparisons of
distinct short decimals agree).
-/

namespace Spinneret

/-- Python's `s.split(c)` for a one-character separator, on the character
list of a byte string: splitting the empty string yields one empty piece,
and every separator occurrence contributes a boundary. -/
def splitOnChar (c : Char) : List Char → List (List Char)
  | [] => [[]]
  | x :: xs =>
    if x = c then [] :: splitOnChar c xs
    else
      match splitOnChar c xs with
      | [] => [[x]]
      | y :: ys => (x :: y) :: ys

/-- Python's `s.strip()` on a character list: whitespace removed from both
ends. -/
def pyStripChars (l : List Char) : List Char :=
  ((l.dropWhile Char.isWhitespace).reverse.dropWhile Char.isWhitespace).reverse

/-- Python's `s.lower()` on a byte string (ASCII case folding). -/
def pyLower (s : String) : String :=
  ⟨s.data.map Char.toLower⟩

/-- `OrderedDict` assignment `d[k] = v`: an existing key keeps its position
and has its value replaced; a new key is appended at the end. -/
def odInsert {V : Type} (l : List (String × V)) (k : String) (v : V) :
    List (String × V) :=
  match l with
  | [] => [(k, v)]
  | (k', v') :: rest =>
    if k' = k then (k', v) :: rest else (k', v') :: odInsert rest k v

/-- Python's `d.get(k)` on a dictionary represented as an association list
whose keys are distinct (the first binding wins). -/
def alookup {V : Type} (k : String) : List (String × V) → Option V
  | [] => none
  | kv :: l => if kv.1 = k then some kv.2 else alookup k l

/-- The value of the last assignment to key `k` in a list of assignments,
if any. -/
def lastVal {V : Type} (k : String) : List (String × V) → Option V
  | [] => none
  | kv :: l =>
    match lastVal k l with
    | some v => some v
    | none => if kv.1 = k then some kv.2 else none

/-- The keys of a sequence of `OrderedDict` assignments in iteration order:
each name appears once, at the position of its first assignment. -/
def orderedKeys (names : List String) : List String :=
  names.foldl (fun ks k => if k ∈ ks then ks else ks ++ [k]) []

/-! ## Route components (`txspinneret/route.py`) -/

/-- One route component: either a static byte-string literal, or a dynamic
matcher, a callable taking the path segment (the request argument of the
source is already folded into the closure, as in `Text(name, encoding)`)
and returning the parameter name together with the parsed value or `None`. -/
inductive Component (V : Type) where
  | lit (s : String)
  | dyn (f : String → String × Option V)

/-- Python's `int(s, 10)`: strip surrounding whitespace, allow one optional
sign, then require a non-empty run of decimal digits. -/
def pyIntBase10 (s : String) : Option Int :=
  let t := pyStripChars s.data
  let signed : Int × List Char :=
    match t with
    | '-' :: rest => (-1, rest)
    | '+' :: rest => (1, rest)
    | _ => (1, t)
  if signed.2 ≠ [] ∧ signed.2.all Char.isDigit then
    some (signed.1 * (signed.2.foldl (fun a c => a * 10 + (c.toNat - '0'.toNat)) 0 : Nat))
  else none

/-- `query.Integer` applied to a text segment: `int(Text(value), base=10)`,
`None` on parse failure.  `Text` decodes bytes, which on our text model of
ASCII segments is the identity. -/
def queryInteger (s : String) : Option Int := pyIntBase10 s

/-- The `_match` closure produced by the `Integer(name)` factory of
`route.py`, with the default base 10: it always returns the parameter
name, paired with the parsed integer or `None`. -/
def IntegerMatch (name : String) (s : String) : String × Option Int :=
  (name, queryInteger s)

/-- The `Integer(name)` matcher as a route component. -/
def IntegerComponent (name : String) : Component Int :=
  Component.dyn (IntegerMatch name)

/-- The matcher produced by the `Text(name)` factory of `route.py`:
`query.Text` on an (already decoded) segment returns it unchanged. -/
def TextComponent (name : String) : Component String :=
  Component.dyn (fun s => (name, some s))

/-- The normalisation step at the top of `_matchRoute` (route.py lines
111-115): a single byte-string component is split on `/` after removing one
leading `/`.  Indexing `components[0]` on the empty string raises
`IndexError` in the source, modelled as `Except.error ()`. -/
def normalize {V : Type} (comps : List (Component V)) :
    Except Unit (List (Component V)) :=
  match comps with
  | [c] =>
    match c with
    | Component.lit s =>
      match s.data with
      | [] => Except.error ()
      | ch :: rest =>
        let chars := if ch = '/' then rest else ch :: rest
        Except.ok ((splitOnChar '/' chars).map (fun l => Component.lit ⟨l⟩))
    | Component.dyn f => Except.ok [Component.dyn f]
  | cs => Except.ok cs

/-- The `izip_longest` walk of `_matchRoute` (route.py lines 125-147).
`results` is the `OrderedDict` accumulated so far; the `remaining` list of
the source always equals the still-unconsumed suffix of the segments, which
is the `segs` argument, so it is not tracked separately.  `none` is the
`NO_MATCH` outcome. -/
def matchLoop {V : Type} (partialMatching : Bool) :
    List (Component V) → List String → List (String × V) →
    Option (List (String × V) × List String)
  | [], [], results => some (results, [])
  | [], s :: ss, results =>
    -- components exhausted first: a prefix match if partial, else NO_MATCH
    if partialMatching then some (results, s :: ss) else none
  | _ :: _, [], _ => none
  | c :: cs, s :: ss, results =>
    match c with
    | Component.lit l =>
      if l = s then matchLoop partialMatching cs ss results else none
    | Component.dyn f =>
      match f s with
      | (name, some v) =>
        matchLoop partialMatching cs ss (odInsert results name v)
      | (_, none) => none

/-- `_matchRoute(components, request, segments, partialMatching)`
(route.py lines 83-147): normalise the components, succeed immediately on
the null route, then walk; `NO_MATCH` carries the original segments. -/
def matchRoute {V : Type} (comps : List (Component V)) (segs : List String)
    (partialMatching : Bool) :
    Except Unit (Option (List (String × V)) × List String) :=
  match normalize comps with
  | Except.error e => Except.error e
  | Except.ok cs =>
    if segs.length = 0 ∧ cs.length = 0 then Except.ok (some [], [])
    else
      match matchLoop partialMatching cs segs [] with
      | some (res, rem) => Except.ok (some res, rem)
      | none => Except.ok (none, segs)

/-- `route(*components)`: exact matching, `partialMatching=False`. -/
def route {V : Type} (comps : List (Component V)) (segs : List String) :
    Except Unit (Option (List (String × V)) × List String) :=
  matchRoute comps segs false

/-- `subroute(*components)`: prefix matching, `partialMatching=True`. -/
def subroute {V : Type} (comps : List (Component V)) (segs : List String) :
    Except Unit (Option (List (String × V)) × List String) :=
  matchRoute comps segs true

/-! ## Router dispatch (`_RouterResource._matchRoute`, route.py 224-232) -/

/-- One registered route: the handler name, the handler function (with the
owning object and the request folded in), and the matcher, itself the pair
of a component list and the partial flag captured by
`partial(_matchRoute, components, partialMatching=...)`. -/
structure RouteEntry (V R : Type) where
  name : String
  handler : List (String × V) → R
  comps : List (Component V)
  partialFlag : Bool

/-- `_RouterResource._matchRoute(request, segments)`: try each registered
route in order; on the first match invoke its handler and return the
result with the remaining segments, otherwise return `(None, segments)`.
An exception raised while matching propagates. -/
def routerLocate {V R : Type} (routes : List (RouteEntry V R))
    (segs : List String) : Except Unit (Option R × List String) :=
  match routes with
  | [] => Except.ok (none, segs)
  | e :: rest =>
    match matchRoute e.comps segs e.partialFlag with
    | Except.error u => Except.error u
    | Except.ok (some res, rem) => Except.ok (some (e.handler res), rem)
    | Except.ok (none, _) => routerLocate rest segs

/-! ## Accept-header parsing (`txspinneret/util.py`) -/

/-- A parsed media-type specification: the media type and its parameter
dictionary. -/
abbrev AcceptEntry := String × List (String × String)

/-- The value of a non-empty run of decimal digits. -/
def natOfDigits (l : List Char) : Nat :=
  l.foldl (fun a c => a * 10 + (c.toNat - '0'.toNat)) 0

/-- Python's `float(s)` on finite decimal literals, as an exact rational:
surrounding whitespace, an optional sign, an integer part and/or a
fractional part, and an optional decimal exponent.  (`inf`/`nan` spellings
are outside the fragment the library exercises.) -/
def pyFloat (s : String) : Option ℚ :=
  let t := pyStripChars s.data
  let sgn : Int := match t with | '-' :: _ => -1 | _ => 1
  let t1 : List Char := match t with | '-' :: r => r | '+' :: r => r | _ => t
  let ip := t1.takeWhile Char.isDigit
  let t2 := t1.drop ip.length
  let hasDot : Bool := match t2 with | '.' :: _ => true | _ => false
  let t3 := if hasDot then t2.drop 1 else t2
  let fp := if hasDot then t3.takeWhile Char.isDigit else []
  let t4 := if hasDot then t3.drop fp.length else t3
  if ip.isEmpty ∧ fp.isEmpty then none
  else
    -- the mantissa sgn * (ip + fp / 10^|fp|) as an integer fraction
    let num : Int := sgn * (natOfDigits ip * 10 ^ fp.length + natOfDigits fp : Nat)
    let den : Nat := 10 ^ fp.length
    match t4 with
    | [] => some (mkRat num den)
    | c :: r =>
      if c = 'e' ∨ c = 'E' then
        let eneg : Bool := match r with | '-' :: _ => true | _ => false
        let r1 : List Char := match r with | '-' :: rr => rr | '+' :: rr => rr | _ => r
        if r1 ≠ [] ∧ r1.all Char.isDigit then
          let e := natOfDigits r1
          some (if eneg then mkRat num (den * 10 ^ e) else mkRat (num * 10 ^ e) den)
        else none
      else none

/-- One `key=value` component argument of `cgi.parse_header`: everything up
to the first `=` is the name (stripped, lower-cased), the rest is the value
(stripped, then unquoted if surrounded by double quotes); a piece without
`=` contributes nothing. -/
def parseParam (p : List Char) : Option (String × String) :=
  if p.contains '=' then
    let name := (pyStripChars (p.takeWhile (fun c => c != '='))).map Char.toLower
    let value := pyStripChars ((p.dropWhile (fun c => c != '=')).drop 1)
    let value :=
      if 2 ≤ value.length ∧ value.head? = some '"' ∧ value.getLast? = some '"' then
        value.drop 1 |>.dropLast
      else value
    some (⟨name⟩, ⟨value⟩)
  else none

/-- `cgi.parse_header(line)`: the media type is the stripped text before the
first `;`; the remaining `;`-separated pieces build the parameter dictionary,
later assignments to the same name overwriting earlier ones.  (Quoted
parameter values containing `;` or escapes are outside the fragment the
library exercises.) -/
def parse_header (line : String) : AcceptEntry :=
  match splitOnChar ';' line.data with
  | [] => ("", [])
  | key :: params =>
    (⟨pyStripChars key⟩,
     params.foldl
       (fun d p =>
         match parseParam (pyStripChars p) with
         | some (k, v) => odInsert d k v
         | none => d)
       [])

/-- `_splitHeaders(headers)` (util.py lines 28-42): drop empty header
values, split each on `,`, and parse each piece with `cgi.parse_header`. -/
def splitHeaders (headers : List String) : List AcceptEntry :=
  ((headers.filter (fun s => s != "")).flatMap
      (fun s => (splitOnChar ',' s.data).map (fun l => (⟨l⟩ : String)))).map
    parse_header

/-- The sort key of `_parseAccept`: `float(args.get('q', 1))`; a `q`
parameter that `float` cannot parse raises in the source. -/
def qValue (args : List (String × String)) : Except Unit ℚ :=
  match alookup "q" args with
  | none => Except.ok 1
  | some s =>
    match pyFloat s with
    | some r => Except.ok r
    | none => Except.error ()

/-- One insertion step of a stable descending sort on the first projection:
the new element goes after every already-placed element whose key is at
least as large (Python's stable `sorted(..., reverse=True)` keeps ties in
input order). -/
def insertByQ {α : Type} (x : ℚ × α) : List (ℚ × α) → List (ℚ × α)
  | [] => [x]
  | y :: ys => if y.1 < x.1 then x :: y :: ys else y :: insertByQ x ys

/-- Stable sort in descending key order, processing the input left to
right. -/
def sortDescByQ {α : Type} (l : List (ℚ × α)) : List (ℚ × α) :=
  l.foldl (fun acc x => insertByQ x acc) []

/-- Pair every entry with its `q` sort key, raising on the first entry
whose `q` value `float` cannot parse (Python's `sorted` evaluates `key`
on every element). -/
def keyByQ : List AcceptEntry → Except Unit (List (ℚ × AcceptEntry))
  | [] => Except.ok []
  | e :: es =>
    match qValue e.2, keyByQ es with
    | Except.ok q, Except.ok ks => Except.ok ((q, e) :: ks)
    | Except.error u, _ => Except.error u
    | Except.ok _, Except.error u => Except.error u

/-- `sorted(_splitHeaders(headers), key=sort, reverse=True)`: compute every
entry's `q` key, then sort stably in descending key order. -/
def sortAccept (entries : List AcceptEntry) : Except Unit (List AcceptEntry) :=
  match keyByQ entries with
  | Except.error u => Except.error u
  | Except.ok keyed => Except.ok ((sortDescByQ keyed).map Prod.snd)

/-- `_parseAccept(headers)` (util.py lines 13-24): split, sort by `q`, and
collect into an `OrderedDict` keyed on the media type. -/
def parseAccept (headers : List String) : Except Unit (List AcceptEntry) :=
  match sortAccept (splitHeaders headers) with
  | Except.error u => Except.error u
  | Except.ok sorted =>
    Except.ok (sorted.foldl (fun acc e => odInsert acc e.1 e.2) [])

/-! ## Content negotiation (`ContentTypeNegotiator`, resource.py 190-238) -/

/-- A negotiable handler resource: the content type it produces and the
accept types it is willing to satisfy.  `id` distinguishes distinct handler
objects with identical attributes. -/
structure Handler where
  id : Nat
  contentType : String
  acceptTypes : List String
deriving DecidableEq

/-- The inner loop of `ContentTypeNegotiator.__init__` for one handler:
each declared accept type is registered verbatim, and a type already
present raises `ValueError('Duplicate handler for ...')`. -/
def addAcceptTypes (h : Handler) (m : List (String × Handler)) :
    List String → Except Unit (List (String × Handler))
  | [] => Except.ok m
  | a :: as =>
    if (alookup a m).isSome then Except.error ()
    else addAcceptTypes h ((a, h) :: m) as

/-- The registration loop of `ContentTypeNegotiator.__init__` over the
handler list, threading the accept-type table. -/
def buildAcceptHandlersAux (m : List (String × Handler)) :
    List Handler → Except Unit (List (String × Handler))
  | [] => Except.ok m
  | h :: hs =>
    match addAcceptTypes h m h.acceptTypes with
    | Except.error u => Except.error u
    | Except.ok m' => buildAcceptHandlersAux m' hs

/-- The accept-type table built at construction (resource.py 212-218). -/
def buildAcceptHandlers (hs : List Handler) :
    Except Unit (List (String × Handler)) :=
  buildAcceptHandlersAux [] hs

/-- The state of a constructed `ContentTypeNegotiator`. -/
structure Negotiator where
  handlers : List Handler
  fallback : Bool
  acceptHandlers : List (String × Handler)

/-- `ContentTypeNegotiator(handlers, fallback)`: construction fails with
`ValueError` on a duplicate accept type. -/
def mkNegotiator (handlers : List Handler) (fallback : Bool) :
    Except Unit Negotiator :=
  match buildAcceptHandlers handlers with
  | Except.error u => Except.error u
  | Except.ok t => Except.ok ⟨handlers, fallback, t⟩

/-- The selection walk of `_negotiateHandler`: the first media type whose
lower-cased spelling is a key of the table selects its handler.  Note that
only the client's media type is case-folded here; the table keys are the
declared spellings. -/
def firstAcceptHandler (table : List (String × Handler)) :
    List String → Option Handler
  | [] => none
  | ct :: rest =>
    match alookup (pyLower ct) table with
    | some h => some h
    | none => firstAcceptHandler table rest

/-- The outcome of `_negotiateHandler`: a handler paired with its declared
content type, or the `NotAcceptable()` sentinel with no content type. -/
inductive NegotiationResult where
  | selected (h : Handler) (contentType : String)
  | notAcceptable
deriving DecidableEq

/-- `ContentTypeNegotiator._negotiateHandler(request)` (resource.py
221-238): parse and sort the `Accept` header values, walk them in order,
fall back to the first constructed handler if requested, else answer the
`NotAcceptable` sentinel.  `self._handlers[0]` on an empty handler list
raises `IndexError` in the source. -/
def negotiateHandler (n : Negotiator) (headers : List String) :
    Except Unit NegotiationResult :=
  match parseAccept headers with
  | Except.error u => Except.error u
  | Except.ok accept =>
    match firstAcceptHandler n.acceptHandlers (accept.map Prod.fst) with
    | some h => Except.ok (NegotiationResult.selected h h.contentType)
    | none =>
      if n.fallback then
        match n.handlers with
        | [] => Except.error ()
        | h :: _ => Except.ok (NegotiationResult.selected h h.contentType)
      else Except.ok NegotiationResult.notAcceptable

/-- Construction followed by negotiation, the full observable pipeline of
`ContentTypeNegotiator`. -/
def ctnNegotiate (handlers : List Handler) (fallback : Bool)
    (headers : List String) : Except Unit NegotiationResult :=
  match mkNegotiator handlers fallback with
  | Except.error u => Except.error u
  | Except.ok n => negotiateHandler n headers

/-! ## Query combinators (`txspinneret/query.py`) -/

/-- The Python values a raw query argument can take: the `None` absence
marker, byte strings, text strings, sequences, and any non-sequence
object. -/
inductive PyVal where
  | pynone
  | pybytes (s : String)
  | pytext (s : String)
  | pyseq (xs : List PyVal)
  | pyother

/-- `_isSequenceTypeNotText(x)` (query.py lines 30-34):
`operator.isSequenceType(x) and not isinstance(x, (bytes, unicode))`.
Byte and text strings are sequences but are excluded; `None` and
non-sequence objects fail `isSequenceType`. -/
def isSequenceTypeNotText : PyVal → Bool
  | PyVal.pyseq _ => true
  | _ => false

/-- The elements of a sequence value; only consulted after
`isSequenceTypeNotText` has answered true (Python's short-circuiting
`and`), so the other arms are never reached. -/
def pyElems : PyVal → List PyVal
  | PyVal.pyseq xs => xs
  | _ => []

/-- `one(func, n)` applied to a raw value (query.py lines 38-55): the
`maybe` wrapper short-circuits `None` to `None`; `_one` applies `func` to
element `n` when `_isSequenceTypeNotText(result) and len(result) > n`,
and returns `None` otherwise. -/
def one {α : Type} (func : PyVal → Option α) (n : Nat) (result : PyVal) :
    Option α :=
  match result with
  | PyVal.pynone => none
  | r =>
    if isSequenceTypeNotText r ∧ n < (pyElems r).length then
      func ((pyElems r).getD n PyVal.pynone)
    else none

/-! ## Lemmas about the match loop -/

theorem matchLoop_exact_lengths {V : Type} (comps : List (Component V)) :
    ∀ (segs : List String) (acc res : List (String × V)) (rem : List String),
    matchLoop false comps segs acc = some (res, rem) →
    rem = [] ∧ segs.length = comps.length := by
  induction comps with
  | nil =>
    intro segs acc res rem h
    cases segs with
    | nil => simp [matchLoop] at h; simp [h]
    | cons s ss => simp [matchLoop] at h
  | cons c cs ih =>
    intro segs acc res rem h
    cases segs with
    | nil => simp [matchLoop] at h
    | cons s ss =>
      cases c with
      | lit l =>
        by_cases hls : l = s
        · simp [matchLoop, hls] at h
          obtain ⟨h1, h2⟩ := ih ss acc res rem h
          exact ⟨h1, by simp [h2]⟩
        · simp [matchLoop, hls] at h
      | dyn f =>
        rcases hfs : f s with ⟨name, mv⟩
        simp [matchLoop, hfs] at h
        cases mv with
        | none => simp at h
        | some v =>
          simp at h
          obtain ⟨h1, h2⟩ := ih ss (odInsert acc name v) res rem h
          exact ⟨h1, by simp [h2]⟩

theorem matchLoop_subroute_drop {V : Type} (comps : List (Component V)) :
    ∀ (segs : List String) (acc res : List (String × V)) (rem : List String),
    matchLoop true comps segs acc = some (res, rem) →
    rem = segs.drop comps.length ∧ comps.length ≤ segs.length := by
  induction comps with
  | nil =>
    intro segs acc res rem h
    cases segs with
    | nil => simp [matchLoop] at h; simp [h]
    | cons s ss => simp [matchLoop] at h; simp [h]
  | cons c cs ih =>
    intro segs acc res rem h
    cases segs with
    | nil => simp [matchLoop] at h
    | cons s ss =>
      cases c with
      | lit l =>
        by_cases hls : l = s
        · simp [matchLoop, hls] at h
          obtain ⟨h1, h2⟩ := ih ss acc res rem h
          exact ⟨by simpa using h1, by simpa using h2⟩
        · simp [matchLoop, hls] at h
      | dyn f =>
        rcases hfs : f s with ⟨name, mv⟩
        simp [matchLoop, hfs] at h
        cases mv with
        | none => simp at h
        | some v =>
          simp at h
          obtain ⟨h1, h2⟩ := ih ss (odInsert acc name v) res rem h
          exact ⟨by simpa using h1, by simpa using h2⟩

/-- C1: if `route(R)` (exact matching) succeeds then the number of path
segments equals the number of (normalised) components and the returned
remainder is empty; if `subroute(R)` (prefix matching) succeeds then the
remainder is the segment sequence with its first `len(R)` elements
removed, and there are at least `len(R)` segments. -/
theorem claim1_route_postconditions {V : Type} (comps : List (Component V))
    (segs : List String) (res : List (String × V)) (rem : List String) :
    (route comps segs = Except.ok (some res, rem) →
      rem = [] ∧
        ∃ cs, normalize comps = Except.ok cs ∧ segs.length = cs.length) ∧
    (subroute comps segs = Except.ok (some res, rem) →
      ∃ cs, normalize comps = Except.ok cs ∧
        rem = segs.drop cs.length ∧ cs.length ≤ segs.length) := by
  constructor
  · intro h
    unfold route matchRoute at h
    split at h
    · exact absurd h (by simp)
    next cs hn =>
      split at h
      next h0 =>
        obtain ⟨hres, hrem⟩ : some ([] : List (String × V)) = some res ∧ ([] : List String) = rem := by
          simpa using h
        exact ⟨hrem.symm, cs, hn, by omega⟩
      next h0 =>
        split at h
        next r rm hm =>
          obtain ⟨hres, hrem⟩ : some r = some res ∧ rm = rem := by simpa using h
          obtain ⟨h1, h2⟩ := matchLoop_exact_lengths cs segs [] r rm hm
          exact ⟨hrem ▸ h1, cs, hn, h2⟩
        next hm => exact absurd h (by simp)
  · intro h
    unfold subroute matchRoute at h
    split at h
    · exact absurd h (by simp)
    next cs hn =>
      split at h
      next h0 =>
        obtain ⟨hres, hrem⟩ : some ([] : List (String × V)) = some res ∧ ([] : List String) = rem := by
          simpa using h
        have hsegs : segs = [] := List.eq_nil_of_length_eq_zero h0.1
        exact ⟨cs, hn, by simp [hsegs, hrem.symm], by omega⟩
      next h0 =>
        split at h
        next r rm hm =>
          obtain ⟨hres, hrem⟩ : some r = some res ∧ rm = rem := by simpa using h
          obtain ⟨h1, h2⟩ := matchLoop_subroute_drop cs segs [] r rm hm
          exact ⟨cs, hn, hrem ▸ h1, h2⟩
        next hm => exact absurd h (by simp)

/-- Witness for C1: the exact route `['foo']` against `['foo']` and the
prefix route `['foo']` against `['foo', 'bar']`. -/
theorem claim1_route_postconditions_witness :
    (([] : List String) = [] ∧
      ∃ cs, normalize ([Component.lit "foo"] : List (Component Unit)) =
          Except.ok cs ∧ (["foo"] : List String).length = cs.length) ∧
    (∃ cs, normalize ([Component.lit "foo"] : List (Component Unit)) =
        Except.ok cs ∧
      (["bar"] : List String) = (["foo", "bar"] : List String).drop cs.length ∧
      cs.length ≤ (["foo", "bar"] : List String).length) :=
  ⟨(claim1_route_postconditions [Component.lit "foo"] ["foo"] [] []).1 (by rfl),
   (claim1_route_postconditions [Component.lit "foo"] ["foo", "bar"] []
      ["bar"]).2 (by rfl)⟩

/-- C3: whenever route matching answers `NoMatch`, the segment sequence
returned with it is the original input, unmodified, whatever the
components and the partial flag. -/
theorem claim3_nomatch_returns_original {V : Type}
    (comps : List (Component V)) (segs rem : List String) (pm : Bool) :
    matchRoute comps segs pm = Except.ok (none, rem) → rem = segs := by
  intro h
  unfold matchRoute at h
  split at h
  · exact absurd h (by simp)
  next cs hn =>
    split at h
    next h0 => exact absurd h (by simp)
    next h0 =>
      split at h
      next r rm hm => exact absurd h (by simp)
      next hm => simpa using h.symm

/-- Witness for C3: the route `['foo']` against `['bar']` fails and hands
back `['bar']`. -/
theorem claim3_nomatch_returns_original_witness :
    (["bar"] : List String) = ["bar"] :=
  claim3_nomatch_returns_original (V := Unit) [Component.lit "foo"] ["bar"]
    ["bar"] false (by rfl)

/-- C2: a dynamic matcher whose parsed value is `None` makes the whole
match fail at that point of the walk, for any remaining components,
accumulated parameters and partial flag; concretely, `Integer('n')`
answers `('n', 42)` on `'42'` and `('n', None)` on `'abc'`, and the
enclosing exact route matches `['42']` but fails on `['abc']`. -/
theorem claim2_null_parse_is_nomatch :
    (∀ (V : Type) (f : String → String × Option V) (cs : List (Component V))
        (s : String) (ss : List String) (pm : Bool) (acc : List (String × V)),
      (f s).2 = none →
      matchLoop pm (Component.dyn f :: cs) (s :: ss) acc = none) ∧
    IntegerMatch "n" "42" = ("n", some 42) ∧
    IntegerMatch "n" "abc" = ("n", none) ∧
    route [IntegerComponent "n"] ["42"] =
      Except.ok (some [("n", (42 : Int))], []) ∧
    route [IntegerComponent "n"] ["abc"] = Except.ok (none, ["abc"]) := by
  refine ⟨?_, by decide, by decide, by rfl, by rfl⟩
  intro V f cs s ss pm acc hnone
  rcases hfs : f s with ⟨name, mv⟩
  rw [hfs] at hnone
  cases mv with
  | none => simp [matchLoop, hfs]
  | some v => simp at hnone

/-- Witness for C2: a matcher that always fails to parse aborts the match
of the route `[dyn, 'x']` at its segment. -/
theorem claim2_null_parse_is_nomatch_witness :
    matchLoop false
      (Component.dyn (fun _ => ("p", (none : Option Unit))) ::
        [Component.lit "x"]) ["a", "x"] [] = none :=
  claim2_null_parse_is_nomatch.1 Unit (fun _ => ("p", none))
    [Component.lit "x"] "a" ["x"] false [] (by rfl)

/-! ## Totality of matching away from the empty-literal normalisation -/

theorem normalize_ok_of_ne {V : Type} (comps : List (Component V))
    (h : comps ≠ [Component.lit ""]) :
    ∃ cs, normalize comps = Except.ok cs := by
  match comps with
  | [] => exact ⟨_, rfl⟩
  | c :: c' :: rest => exact ⟨_, rfl⟩
  | [Component.dyn f] => exact ⟨_, rfl⟩
  | [Component.lit s] =>
    obtain ⟨d⟩ := s
    cases d with
    | nil => exact absurd rfl h
    | cons ch chs => exact ⟨_, rfl⟩

theorem matchRoute_isOk {V : Type} (comps : List (Component V))
    (segs : List String) (pm : Bool) (h : comps ≠ [Component.lit ""]) :
    ∃ out, matchRoute comps segs pm = Except.ok out := by
  obtain ⟨cs, hcs⟩ := normalize_ok_of_ne comps h
  simp only [matchRoute, hcs]
  by_cases h0 : segs.length = 0 ∧ cs.length = 0
  · rw [if_pos h0]
    exact ⟨_, rfl⟩
  · rw [if_neg h0]
    cases hm : matchLoop pm cs segs [] with
    | none => simp only [hm]; exact ⟨_, rfl⟩
    | some p =>
      obtain ⟨r, rm⟩ := p
      simp only [hm]
      exact ⟨_, rfl⟩

theorem routerLocate_isOk {V R : Type} (routes : List (RouteEntry V R))
    (segs : List String)
    (h : ∀ e ∈ routes, e.comps ≠ [Component.lit ""]) :
    ∃ out, routerLocate routes segs = Except.ok out := by
  induction routes with
  | nil => exact ⟨_, rfl⟩
  | cons e rest ih =>
    obtain ⟨out, hout⟩ :=
      matchRoute_isOk e.comps segs e.partialFlag (h e (by simp))
    obtain ⟨r, rm⟩ := out
    cases r with
    | some res =>
      exact ⟨(some (e.handler res), rm), by simp only [routerLocate, hout]⟩
    | none =>
      obtain ⟨out2, hout2⟩ := ih (fun e' he' => h e' (by simp [he']))
      exact ⟨out2, by simp only [routerLocate, hout]; exact hout2⟩

/-- C9 (amended): route matching and Router dispatch raise no exception of
their own, except that normalisation of a component sequence consisting of
exactly one literal that is the empty byte string indexes into an empty
string and raises `IndexError`; for every other component sequence every
outcome is a returned value, and Router dispatch over entries avoiding
that single case always returns. -/
theorem claim9_no_exception_except_empty_literal :
    (∀ (V : Type) (comps : List (Component V)) (segs : List String)
        (pm : Bool), comps ≠ [Component.lit ""] →
      ∃ out, matchRoute comps segs pm = Except.ok out) ∧
    (∀ (V R : Type) (routes : List (RouteEntry V R)) (segs : List String),
      (∀ e ∈ routes, e.comps ≠ [Component.lit ""]) →
      ∃ out, routerLocate routes segs = Except.ok out) :=
  ⟨fun _ comps segs pm h => matchRoute_isOk comps segs pm h,
   fun _ _ routes segs h => routerLocate_isOk routes segs h⟩

/-- Counterexample to C9 as stated: matching the route whose single
component is the empty string literal raises (`components[0]` on the empty
string in the normalisation step), so dispatch is not exception-free for
every component sequence. -/
theorem claim9_counterexample :
    matchRoute ([Component.lit ""] : List (Component Unit)) [] false =
      Except.error () := by rfl

/-- Witness for amended C9: a one-literal route and the empty route table
both return. -/
theorem claim9_no_exception_except_empty_literal_witness :
    (∃ out, matchRoute ([Component.lit "foo"] : List (Component Unit))
        ["foo"] false = Except.ok out) ∧
    (∃ out, routerLocate ([] : List (RouteEntry Unit Unit)) ["x"] =
        Except.ok out) :=
  ⟨claim9_no_exception_except_empty_literal.1 Unit [Component.lit "foo"]
      ["foo"] false (by simp),
   claim9_no_exception_except_empty_literal.2 Unit Unit [] ["x"]
      (by simp)⟩

/-! ## Ordered parameter accumulation -/

/-- The `(name, value)` assignments performed by a successful walk of the
components against the segments, in component declaration order. -/
def emittedPairs {V : Type} : List (Component V) → List String →
    List (String × V)
  | Component.dyn f :: cs, s :: ss =>
    match f s with
    | (name, some v) => (name, v) :: emittedPairs cs ss
    | (_, none) => []
  | Component.lit _ :: cs, _ :: ss => emittedPairs cs ss
  | _, _ => []

/-- Performing a list of `OrderedDict` assignments in order. -/
def odExtend {V : Type} (acc : List (String × V))
    (l : List (String × V)) : List (String × V) :=
  l.foldl (fun a kv => odInsert a kv.1 kv.2) acc

theorem odInsert_map_fst {V : Type} (l : List (String × V)) (k : String)
    (v : V) :
    (odInsert l k v).map Prod.fst =
      if k ∈ l.map Prod.fst then l.map Prod.fst
      else l.map Prod.fst ++ [k] := by
  induction l with
  | nil => simp [odInsert]
  | cons kv rest ih =>
    obtain ⟨k', v'⟩ := kv
    by_cases hk : k' = k
    · simp [odInsert, hk]
    · simp only [odInsert, if_neg hk, List.map_cons, ih]
      by_cases hm : k ∈ rest.map Prod.fst
      · simp [hm, Ne.symm hk]
      · simp [hm, Ne.symm hk]

theorem alookup_odInsert {V : Type} (l : List (String × V))
    (k k' : String) (v : V) :
    alookup k (odInsert l k' v) =
      if k = k' then some v else alookup k l := by
  induction l with
  | nil =>
    by_cases hk : k = k'
    · subst hk; simp [odInsert, alookup]
    · simp [odInsert, alookup, hk, Ne.symm hk]
  | cons kv rest ih =>
    obtain ⟨a, b⟩ := kv
    by_cases ha : a = k'
    · subst ha
      by_cases hk : k = a
      · subst hk; simp [odInsert, alookup]
      · simp [odInsert, alookup, hk, Ne.symm hk]
    · by_cases hk : a = k
      · subst hk
        simp [odInsert, alookup, ha, Ne.symm ha]
      · simp [odInsert, alookup, ha, hk, ih]

theorem odExtend_map_fst {V : Type} (l : List (String × V)) :
    ∀ acc : List (String × V),
    (odExtend acc l).map Prod.fst =
      (l.map Prod.fst).foldl
        (fun ks k => if k ∈ ks then ks else ks ++ [k])
        (acc.map Prod.fst) := by
  induction l with
  | nil => intro acc; rfl
  | cons kv rest ih =>
    intro acc
    show (odExtend (odInsert acc kv.1 kv.2) rest).map Prod.fst = _
    rw [ih, odInsert_map_fst]
    rfl

theorem alookup_odExtend {V : Type} (l : List (String × V)) :
    ∀ (acc : List (String × V)) (k : String),
    alookup k (odExtend acc l) =
      match lastVal k l with
      | some v => some v
      | none => alookup k acc := by
  induction l with
  | nil => intro acc k; rfl
  | cons kv rest ih =>
    intro acc k
    show alookup k (odExtend (odInsert acc kv.1 kv.2) rest) = _
    rw [ih]
    show _ = (match (match lastVal k rest with
      | some v => some v
      | none => if kv.1 = k then some kv.2 else none) with
      | some v => some v
      | none => alookup k acc)
    cases hl : lastVal k rest with
    | some v => rfl
    | none =>
      simp only [alookup_odInsert]
      by_cases hk : kv.1 = k
      · simp [hk]
      · simp [hk, Ne.symm hk]

theorem odInsert_of_not_mem {V : Type} (l : List (String × V)) (k : String)
    (v : V) (h : k ∉ l.map Prod.fst) :
    odInsert l k v = l ++ [(k, v)] := by
  induction l with
  | nil => rfl
  | cons kv rest ih =>
    simp only [List.map_cons, List.mem_cons] at h
    push_neg at h
    simp [odInsert, Ne.symm h.1, ih h.2]

theorem odExtend_of_nodup {V : Type} (l : List (String × V)) :
    ∀ acc : List (String × V),
    (l.map Prod.fst).Nodup →
    (∀ k ∈ l.map Prod.fst, k ∉ acc.map Prod.fst) →
    odExtend acc l = acc ++ l := by
  induction l with
  | nil => intro acc _ _; simp [odExtend]
  | cons kv rest ih =>
    intro acc hnd hdisj
    simp only [List.map_cons, List.nodup_cons] at hnd
    show odExtend (odInsert acc kv.1 kv.2) rest = _
    rw [odInsert_of_not_mem acc kv.1 kv.2 (hdisj kv.1 (by simp))]
    rw [ih (acc ++ [(kv.1, kv.2)]) hnd.2 ?_]
    · simp
    · intro k hk
      simp only [List.map_append, List.mem_append]
      push_neg
      refine ⟨hdisj k (by simp [hk]), ?_⟩
      simp only [List.map_cons, List.map_nil, List.mem_singleton]
      intro he
      exact hnd.1 (he ▸ hk)

theorem matchLoop_results {V : Type} (comps : List (Component V)) :
    ∀ (segs : List String) (pm : Bool) (acc res : List (String × V))
      (rem : List String),
    matchLoop pm comps segs acc = some (res, rem) →
    res = odExtend acc (emittedPairs comps segs) := by
  induction comps with
  | nil =>
    intro segs pm acc res rem h
    cases segs with
    | nil => simp [matchLoop] at h; simp [h, emittedPairs, odExtend]
    | cons s ss =>
      cases pm with
      | false => simp [matchLoop] at h
      | true =>
        simp [matchLoop] at h
        simp [h, emittedPairs, odExtend]
  | cons c cs ih =>
    intro segs pm acc res rem h
    cases segs with
    | nil => simp [matchLoop] at h
    | cons s ss =>
      cases c with
      | lit l =>
        by_cases hls : l = s
        · simp [matchLoop, hls] at h
          exact ih ss pm acc res rem h
        · simp [matchLoop, hls] at h
      | dyn f =>
        rcases hfs : f s with ⟨name, mv⟩
        simp [matchLoop, hfs] at h
        cases mv with
        | none => simp at h
        | some v =>
          simp at h
          rw [ih ss pm (odInsert acc name v) res rem h]
          simp [emittedPairs, hfs, odExtend]

/-- C8: on any successful match the iteration order of the parameter
mapping is the order of first assignment, which follows component
declaration order: its keys are the emitted parameter names in first-
occurrence order, a repeated name keeps its first position while the later
assignment's value wins, and when no name repeats the mapping is exactly
the declaration-ordered assignment list. -/
theorem claim8_parameter_order {V : Type} (comps : List (Component V))
    (segs : List String) (pm : Bool) (res : List (String × V))
    (rem : List String) :
    matchRoute comps segs pm = Except.ok (some res, rem) →
    ∃ cs, normalize comps = Except.ok cs ∧
      res.map Prod.fst = orderedKeys ((emittedPairs cs segs).map Prod.fst) ∧
      (∀ k, alookup k res = lastVal k (emittedPairs cs segs)) ∧
      (((emittedPairs cs segs).map Prod.fst).Nodup →
        res = emittedPairs cs segs) := by
  intro h
  unfold matchRoute at h
  split at h
  · exact absurd h (by simp)
  next cs hn =>
    refine ⟨cs, hn, ?_⟩
    split at h
    next h0 =>
      obtain ⟨hres, hrem⟩ :
          some ([] : List (String × V)) = some res ∧
            ([] : List String) = rem := by simpa using h
      have hcs : cs = [] := List.eq_nil_of_length_eq_zero h0.2
      have hsegs : segs = [] := List.eq_nil_of_length_eq_zero h0.1
      have hres' : res = [] := by simpa using hres.symm
      subst hcs hsegs hres'
      exact ⟨rfl, fun _ => rfl, fun _ => rfl⟩
    next h0 =>
      split at h
      next r rm hm =>
        obtain ⟨hres, hrem⟩ : some r = some res ∧ rm = rem := by
          simpa using h
        have hres' : res = odExtend [] (emittedPairs cs segs) := by
          have hr := matchLoop_results cs segs pm [] r rm hm
          have hre : r = res := by simpa using hres
          exact hre ▸ hr
        refine ⟨?_, ?_, ?_⟩
        · rw [hres', odExtend_map_fst]
          rfl
        · intro k
          rw [hres', alookup_odExtend]
          cases hl : lastVal k (emittedPairs cs segs) with
          | some v => rfl
          | none => rfl
        · intro hnd
          rw [hres', odExtend_of_nodup _ [] hnd (by simp)]
          simp
      next hm => exact absurd h (by simp)

/-- Witness for C8: a route with two dynamic components that assign the
same parameter name twice; the later value wins and the first position is
kept. -/
theorem claim8_parameter_order_witness :
    ∃ cs, normalize [Component.dyn (fun _ => ("a", some (1 : Nat))),
        Component.dyn (fun _ => ("a", some 2))] = Except.ok cs ∧
      ([("a", (2 : Nat))] : List (String × Nat)).map Prod.fst =
        orderedKeys ((emittedPairs cs ["x", "y"]).map Prod.fst) ∧
      (∀ k, alookup k [("a", (2 : Nat))] =
        lastVal k (emittedPairs cs ["x", "y"])) ∧
      (((emittedPairs cs ["x", "y"]).map Prod.fst).Nodup →
        [("a", (2 : Nat))] = emittedPairs cs ["x", "y"]) :=
  claim8_parameter_order
    [Component.dyn (fun _ => ("a", some (1 : Nat))),
      Component.dyn (fun _ => ("a", some 2))]
    ["x", "y"] false [("a", 2)] [] (by rfl)

/-! ## The accept-type table -/

theorem addAcceptTypes_ok_char (h : Handler) :
    ∀ (as : List String) (m m' : List (String × Handler)),
    addAcceptTypes h m as = Except.ok m' →
    as.Nodup ∧ (∀ a ∈ as, alookup a m = none) ∧
      (∀ k, alookup k m' = if k ∈ as then some h else alookup k m) := by
  intro as
  induction as with
  | nil =>
    intro m m' hok
    obtain rfl : m = m' := by simpa [addAcceptTypes] using hok
    exact ⟨List.nodup_nil, by simp, fun k => by simp⟩
  | cons a as ih =>
    intro m m' hok
    by_cases hl : (alookup a m).isSome
    · simp [addAcceptTypes, hl] at hok
    · rw [show addAcceptTypes h m (a :: as) =
          (if (alookup a m).isSome then Except.error ()
           else addAcceptTypes h ((a, h) :: m) as) from rfl,
        if_neg hl] at hok
      obtain ⟨hnd, hfresh, hchar⟩ := ih ((a, h) :: m) m' hok
      have hma : alookup a m = none := Option.not_isSome_iff_eq_none.mp hl
      have hnotin : a ∉ as := by
        intro hmem
        have := hfresh a hmem
        simp [alookup] at this
      refine ⟨List.nodup_cons.mpr ⟨hnotin, hnd⟩, ?_, ?_⟩
      · intro b hb
        rcases List.mem_cons.mp hb with rfl | hb'
        · exact hma
        · have := hfresh b hb'
          have hab : ¬ a = b := by
            intro he
            exact hnotin (he ▸ hb')
          simpa [alookup, hab] using this
      · intro k
        rw [hchar k]
        by_cases hkas : k ∈ as
        · simp [hkas]
        · by_cases hka : a = k
          · subst hka
            simp [hkas, alookup]
          · simp [hkas, hka, Ne.symm hka, alookup]

theorem buildAux_ok_char :
    ∀ (hs : List Handler) (m t : List (String × Handler)),
    buildAcceptHandlersAux m hs = Except.ok t →
    (hs.flatMap Handler.acceptTypes).Nodup ∧
      (∀ a ∈ hs.flatMap Handler.acceptTypes, alookup a m = none) ∧
      (∀ k v, alookup k m = some v → alookup k t = some v) ∧
      (∀ h ∈ hs, ∀ a ∈ h.acceptTypes, alookup a t = some h) ∧
      (∀ k, (alookup k t).isSome ↔
        (k ∈ hs.flatMap Handler.acceptTypes ∨ (alookup k m).isSome)) := by
  intro hs
  induction hs with
  | nil =>
    intro m t hok
    obtain rfl : m = t := by simpa [buildAcceptHandlersAux] using hok
    exact ⟨by simp, by simp, fun k v hv => hv, by simp, fun k => by simp⟩
  | cons hh rest ih =>
    intro m t hok
    cases haa : addAcceptTypes hh m hh.acceptTypes with
    | error u => simp [buildAcceptHandlersAux, haa] at hok
    | ok m' =>
      rw [show buildAcceptHandlersAux m (hh :: rest) =
          (match addAcceptTypes hh m hh.acceptTypes with
           | Except.error u => Except.error u
           | Except.ok m' => buildAcceptHandlersAux m' rest) from rfl,
        haa] at hok
      obtain ⟨hnd_a, hfresh_a, hchar⟩ := addAcceptTypes_ok_char hh _ m m' haa
      obtain ⟨ih1, ih2, ih3, ih4, ih5⟩ := ih m' t hok
      have hdisj : ∀ a ∈ hh.acceptTypes,
          a ∉ rest.flatMap Handler.acceptTypes := by
        intro a ha hmem
        have h2 := ih2 a hmem
        rw [hchar a, if_pos ha] at h2
        exact Option.noConfusion h2
      refine ⟨?_, ?_, ?_, ?_, ?_⟩
      · rw [List.flatMap_cons, List.nodup_append]
        exact ⟨hnd_a, ih1, fun a ha => hdisj a ha⟩
      · intro a ha
        rw [List.flatMap_cons, List.mem_append] at ha
        rcases ha with ha | ha
        · exact hfresh_a a ha
        · have h2 := ih2 a ha
          rw [hchar a] at h2
          by_cases hin : a ∈ hh.acceptTypes
          · rw [if_pos hin] at h2; exact Option.noConfusion h2
          · rwa [if_neg hin] at h2
      · intro k v hv
        refine ih3 k v ?_
        rw [hchar k]
        by_cases hin : k ∈ hh.acceptTypes
        · rw [hfresh_a k hin] at hv; exact Option.noConfusion hv
        · rwa [if_neg hin]
      · intro h hmem a ha
        rcases List.mem_cons.mp hmem with rfl | hmem'
        · refine ih3 a h ?_
          rw [hchar a, if_pos ha]
        · exact ih4 h hmem' a ha
      · intro k
        rw [ih5 k, hchar k, List.flatMap_cons, List.mem_append]
        by_cases hin : k ∈ hh.acceptTypes
        · simp [hin]
        · simp [hin]

theorem addAcceptTypes_ok_of (h : Handler) :
    ∀ (as : List String) (m : List (String × Handler)),
    as.Nodup → (∀ a ∈ as, alookup a m = none) →
    ∃ m', addAcceptTypes h m as = Except.ok m' := by
  intro as
  induction as with
  | nil => intro m _ _; exact ⟨m, rfl⟩
  | cons a as ih =>
    intro m hnd hfresh
    rw [List.nodup_cons] at hnd
    have hma : alookup a m = none := hfresh a (by simp)
    have hstep : ∀ b ∈ as, alookup b ((a, h) :: m) = none := by
      intro b hb
      have hab : ¬ a = b := by
        intro he
        exact hnd.1 (he ▸ hb)
      have := hfresh b (by simp [hb])
      simpa [alookup, hab] using this
    obtain ⟨m', hm'⟩ := ih ((a, h) :: m) hnd.2 hstep
    refine ⟨m', ?_⟩
    rw [show addAcceptTypes h m (a :: as) =
        (if (alookup a m).isSome then Except.error ()
         else addAcceptTypes h ((a, h) :: m) as) from rfl]
    rw [hma]
    simpa using hm'

theorem buildAux_ok_of :
    ∀ (hs : List Handler) (m : List (String × Handler)),
    (hs.flatMap Handler.acceptTypes).Nodup →
    (∀ a ∈ hs.flatMap Handler.acceptTypes, alookup a m = none) →
    ∃ t, buildAcceptHandlersAux m hs = Except.ok t := by
  intro hs
  induction hs with
  | nil => intro m _ _; exact ⟨m, rfl⟩
  | cons hh rest ih =>
    intro m hnd hfresh
    rw [List.flatMap_cons, List.nodup_append] at hnd
    obtain ⟨m', hm'⟩ := addAcceptTypes_ok_of hh hh.acceptTypes m hnd.1
      (fun a ha => hfresh a
        (by rw [List.flatMap_cons, List.mem_append]; exact Or.inl ha))
    obtain ⟨hnd_a, hfresh_a, hchar⟩ := addAcceptTypes_ok_char hh _ m m' hm'
    have hstep : ∀ a ∈ rest.flatMap Handler.acceptTypes,
        alookup a m' = none := by
      intro a ha
      rw [hchar a, if_neg (fun hin => hnd.2.2 hin ha)]
      exact hfresh a
        (by rw [List.flatMap_cons, List.mem_append]; exact Or.inr ha)
    obtain ⟨t, ht⟩ := ih m' hnd.2.1 hstep
    refine ⟨t, ?_⟩
    rw [show buildAcceptHandlersAux m (hh :: rest) =
        (match addAcceptTypes hh m hh.acceptTypes with
         | Except.error u => Except.error u
         | Except.ok m' => buildAcceptHandlersAux m' rest) from rfl, hm']
    exact ht

theorem mkNegotiator_ok_inv (hs : List Handler) (fb : Bool)
    (n : Negotiator) (h : mkNegotiator hs fb = Except.ok n) :
    buildAcceptHandlersAux [] hs = Except.ok n.acceptHandlers ∧
      n.handlers = hs ∧ n.fallback = fb := by
  unfold mkNegotiator buildAcceptHandlers at h
  cases hb : buildAcceptHandlersAux ([] : List (String × Handler)) hs with
  | error u => rw [hb] at h; exact absurd h (by simp)
  | ok t =>
    rw [hb] at h
    have hn : (⟨hs, fb, t⟩ : Negotiator) = n := by simpa using h
    subst hn
    exact ⟨rfl, rfl, rfl⟩

/-- C6: constructing the Content Negotiator raises the duplicate-handler
`ValueError` exactly when some accept type is declared twice across the
concatenated declarations of all handlers (by the same handler or by two
different ones); construction succeeds when all declared accept types are
distinct. -/
theorem claim6_duplicate_registration (hs : List Handler) (fb : Bool) :
    (¬ (hs.flatMap Handler.acceptTypes).Nodup →
      mkNegotiator hs fb = Except.error ()) ∧
    ((hs.flatMap Handler.acceptTypes).Nodup →
      ∃ n, mkNegotiator hs fb = Except.ok n) := by
  constructor
  · intro hnd
    unfold mkNegotiator buildAcceptHandlers
    cases hb : buildAcceptHandlersAux ([] : List (String × Handler)) hs with
    | error u => cases u; rfl
    | ok t => exact absurd (buildAux_ok_char hs [] t hb).1 hnd
  · intro hnd
    obtain ⟨t, ht⟩ := buildAux_ok_of hs [] hnd (fun a _ => rfl)
    exact ⟨⟨hs, fb, t⟩, by simp [mkNegotiator, buildAcceptHandlers, ht]⟩

/-- Witness for C6: two handlers declaring `application/json` make
construction raise; a single one constructs. -/
theorem claim6_duplicate_registration_witness :
    mkNegotiator [⟨0, "application/json", ["application/json"]⟩,
        ⟨1, "application/xml", ["application/json"]⟩] false =
      Except.error () ∧
    ∃ n, mkNegotiator [⟨0, "application/json", ["application/json"]⟩]
        false = Except.ok n :=
  ⟨(claim6_duplicate_registration
      [⟨0, "application/json", ["application/json"]⟩,
       ⟨1, "application/xml", ["application/json"]⟩] false).1 (by decide),
   (claim6_duplicate_registration
      [⟨0, "application/json", ["application/json"]⟩] false).2 (by decide)⟩

/-! ## Selection walk lemmas -/

theorem firstAcceptHandler_none (table : List (String × Handler)) :
    ∀ l : List String,
    (∀ x ∈ l, alookup (pyLower x) table = none) →
    firstAcceptHandler table l = none := by
  intro l
  induction l with
  | nil => intro _; rfl
  | cons c rest ih =>
    intro hall
    have hc := hall c (by simp)
    show (match alookup (pyLower c) table with
      | some h => some h
      | none => firstAcceptHandler table rest) = none
    rw [hc]
    exact ih (fun x hx => hall x (by simp [hx]))

theorem firstAcceptHandler_found (table : List (String × Handler)) :
    ∀ (pre : List String) (c : String) (post : List String) (h : Handler),
    (∀ x ∈ pre, alookup (pyLower x) table = none) →
    alookup (pyLower c) table = some h →
    firstAcceptHandler table (pre ++ c :: post) = some h := by
  intro pre
  induction pre with
  | nil =>
    intro c post h _ hc
    show (match alookup (pyLower c) table with
      | some h => some h
      | none => firstAcceptHandler table post) = some h
    rw [hc]
  | cons x pre ih =>
    intro c post h hall hc
    have hx := hall x (by simp)
    show (match alookup (pyLower x) table with
      | some h => some h
      | none => firstAcceptHandler table (pre ++ c :: post)) = some h
    rw [hx]
    exact ih c post h (fun y hy => hall y (by simp [hy])) hc

/-- C7 (amended): the negotiation table built at construction is keyed by
each handler's declared accept-types verbatim (not case-folded); only the
client's media type is lower-cased at lookup, so matching is
case-insensitive in the client's spelling alone: a handler is selected for
every client media type whose lower-cased spelling equals one of the
handler's declared accept types verbatim. -/
theorem claim7_table_keys_verbatim :
    (∀ (hs : List Handler) (fb : Bool) (n : Negotiator),
      mkNegotiator hs fb = Except.ok n →
      ∀ k, (alookup k n.acceptHandlers).isSome ↔
        k ∈ hs.flatMap Handler.acceptTypes) ∧
    (∀ (hs : List Handler) (fb : Bool) (n : Negotiator) (h : Handler)
        (a c : String) (headers : List String) (acc : List AcceptEntry)
        (rest : List String),
      mkNegotiator hs fb = Except.ok n →
      h ∈ hs → a ∈ h.acceptTypes → pyLower c = a →
      parseAccept headers = Except.ok acc →
      acc.map Prod.fst = c :: rest →
      negotiateHandler n headers =
        Except.ok (NegotiationResult.selected h h.contentType)) := by
  constructor
  · intro hs fb n hmk k
    obtain ⟨hb, _, _⟩ := mkNegotiator_ok_inv hs fb n hmk
    have := (buildAux_ok_char hs [] n.acceptHandlers hb).2.2.2.2 k
    simpa [alookup] using this
  · intro hs fb n h a c headers acc rest hmk hmem ha hlow hacc hmap
    obtain ⟨hb, _, _⟩ := mkNegotiator_ok_inv hs fb n hmk
    have hlookup : alookup a n.acceptHandlers = some h :=
      (buildAux_ok_char hs [] n.acceptHandlers hb).2.2.2.1 h hmem a ha
    show (match parseAccept headers with
      | Except.error u => Except.error u
      | Except.ok accept =>
        match firstAcceptHandler n.acceptHandlers (accept.map Prod.fst) with
        | some h => Except.ok (NegotiationResult.selected h h.contentType)
        | none =>
          if n.fallback then
            match n.handlers with
            | [] => Except.error ()
            | h :: _ =>
              Except.ok (NegotiationResult.selected h h.contentType)
          else Except.ok NegotiationResult.notAcceptable) =
      Except.ok (NegotiationResult.selected h h.contentType)
    simp only [hacc]
    rw [hmap]
    have hfirst : firstAcceptHandler n.acceptHandlers (c :: rest) = some h := by
      show (match alookup (pyLower c) n.acceptHandlers with
        | some h => some h
        | none => firstAcceptHandler n.acceptHandlers rest) = some h
      rw [hlow, hlookup]
    rw [hfirst]

/-- Counterexample to C7 as stated: a handler declaring the accept type
`TEXT/HTML` (upper case) is never selected, even by the identical client
spelling, because the table key is stored verbatim while the client's type
is lower-cased before lookup. -/
theorem claim7_counterexample :
    ctnNegotiate [⟨0, "text/html", ["TEXT/HTML"]⟩] false ["TEXT/HTML"] =
      Except.ok NegotiationResult.notAcceptable ∧
    ∀ ct, (Except.ok (NegotiationResult.selected
        ⟨0, "text/html", ["TEXT/HTML"]⟩ ct) :
          Except Unit NegotiationResult) ≠
      Except.ok NegotiationResult.notAcceptable := by
  refine ⟨by rfl, ?_⟩
  intro ct h
  simp at h

/-- Witness for amended C7: a lower-case declared type `text/html` is
found for the client spelling `Text/HTML`. -/
theorem claim7_table_keys_verbatim_witness :
    (∀ k, (alookup k
        (Negotiator.mk [⟨0, "text/html", ["text/html"]⟩] false
          [("text/html", ⟨0, "text/html", ["text/html"]⟩)]).acceptHandlers
        ).isSome ↔
      k ∈ ([⟨0, "text/html", ["text/html"]⟩] :
          List Handler).flatMap Handler.acceptTypes) ∧
    negotiateHandler
        (Negotiator.mk [⟨0, "text/html", ["text/html"]⟩] false
          [("text/html", ⟨0, "text/html", ["text/html"]⟩)])
        ["Text/HTML"] =
      Except.ok (NegotiationResult.selected
        ⟨0, "text/html", ["text/html"]⟩ "text/html") :=
  ⟨claim7_table_keys_verbatim.1 [⟨0, "text/html", ["text/html"]⟩] false
      (Negotiator.mk [⟨0, "text/html", ["text/html"]⟩] false
        [("text/html", ⟨0, "text/html", ["text/html"]⟩)]) (by rfl),
   claim7_table_keys_verbatim.2 [⟨0, "text/html", ["text/html"]⟩] false
      (Negotiator.mk [⟨0, "text/html", ["text/html"]⟩] false
        [("text/html", ⟨0, "text/html", ["text/html"]⟩)])
      ⟨0, "text/html", ["text/html"]⟩ "text/html" "Text/HTML"
      ["Text/HTML"] [("Text/HTML", [])] [] (by rfl) (by simp) (by simp)
      (by rfl) (by rfl) (by rfl)⟩

/-- C5: walking the q-sorted accept list, the first media type whose
case-folded spelling is a key of the negotiation mapping selects that
handler with its declared content type; when none matches, `fallback=true`
selects the first handler supplied at construction with its content type,
whatever its accept types, and `fallback=false` yields the
`NotAcceptable` sentinel with no content type. -/
theorem claim5_negotiation_selection :
    (∀ (hs : List Handler) (fb : Bool) (n : Negotiator)
        (headers : List String) (acc : List AcceptEntry)
        (pre : List String) (c : String) (post : List String) (h : Handler),
      mkNegotiator hs fb = Except.ok n →
      parseAccept headers = Except.ok acc →
      acc.map Prod.fst = pre ++ c :: post →
      (∀ x ∈ pre, alookup (pyLower x) n.acceptHandlers = none) →
      alookup (pyLower c) n.acceptHandlers = some h →
      negotiateHandler n headers =
        Except.ok (NegotiationResult.selected h h.contentType)) ∧
    (∀ (h0 : Handler) (hrest : List Handler) (n : Negotiator)
        (headers : List String) (acc : List AcceptEntry),
      mkNegotiator (h0 :: hrest) true = Except.ok n →
      parseAccept headers = Except.ok acc →
      (∀ x ∈ acc.map Prod.fst, alookup (pyLower x) n.acceptHandlers = none) →
      negotiateHandler n headers =
        Except.ok (NegotiationResult.selected h0 h0.contentType)) ∧
    (∀ (hs : List Handler) (n : Negotiator) (headers : List String)
        (acc : List AcceptEntry),
      mkNegotiator hs false = Except.ok n →
      parseAccept headers = Except.ok acc →
      (∀ x ∈ acc.map Prod.fst, alookup (pyLower x) n.acceptHandlers = none) →
      negotiateHandler n headers =
        Except.ok NegotiationResult.notAcceptable) := by
  refine ⟨?_, ?_, ?_⟩
  · intro hs fb n headers acc pre c post h hmk hacc hmap hpre hc
    show (match parseAccept headers with
      | Except.error u => Except.error u
      | Except.ok accept =>
        match firstAcceptHandler n.acceptHandlers (accept.map Prod.fst) with
        | some h => Except.ok (NegotiationResult.selected h h.contentType)
        | none =>
          if n.fallback then
            match n.handlers with
            | [] => Except.error ()
            | h :: _ =>
              Except.ok (NegotiationResult.selected h h.contentType)
          else Except.ok NegotiationResult.notAcceptable) = _
    simp only [hacc]
    rw [hmap, firstAcceptHandler_found n.acceptHandlers pre c post h hpre hc]
  · intro h0 hrest n headers acc hmk hacc hall
    obtain ⟨_, hhandlers, hfb⟩ := mkNegotiator_ok_inv (h0 :: hrest) true n hmk
    show (match parseAccept headers with
      | Except.error u => Except.error u
      | Except.ok accept =>
        match firstAcceptHandler n.acceptHandlers (accept.map Prod.fst) with
        | some h => Except.ok (NegotiationResult.selected h h.contentType)
        | none =>
          if n.fallback then
            match n.handlers with
            | [] => Except.error ()
            | h :: _ =>
              Except.ok (NegotiationResult.selected h h.contentType)
          else Except.ok NegotiationResult.notAcceptable) = _
    simp only [hacc]
    rw [firstAcceptHandler_none n.acceptHandlers (acc.map Prod.fst) hall,
      hfb, hhandlers]
    rfl
  · intro hs n headers acc hmk hacc hall
    obtain ⟨_, _, hfb⟩ := mkNegotiator_ok_inv hs false n hmk
    show (match parseAccept headers with
      | Except.error u => Except.error u
      | Except.ok accept =>
        match firstAcceptHandler n.acceptHandlers (accept.map Prod.fst) with
        | some h => Except.ok (NegotiationResult.selected h h.contentType)
        | none =>
          if n.fallback then
            match n.handlers with
            | [] => Except.error ()
            | h :: _ =>
              Except.ok (NegotiationResult.selected h h.contentType)
          else Except.ok NegotiationResult.notAcceptable) = _
    simp only [hacc]
    rw [firstAcceptHandler_none n.acceptHandlers (acc.map Prod.fst) hall,
      hfb]
    rfl

/-- Witness for C5: a matching accept header selects the declared handler;
an unmatched one selects the first handler under fallback and the
`NotAcceptable` sentinel without it. -/
theorem claim5_negotiation_selection_witness :
    negotiateHandler
        (Negotiator.mk [⟨0, "application/json", ["application/json"]⟩] false
          [("application/json", ⟨0, "application/json", ["application/json"]⟩)])
        ["application/json"] =
      Except.ok (NegotiationResult.selected
        ⟨0, "application/json", ["application/json"]⟩ "application/json") ∧
    negotiateHandler
        (Negotiator.mk [⟨0, "application/json", ["application/json"]⟩,
            ⟨1, "application/xml", ["applicaton/xml"]⟩] true
          [("applicaton/xml", ⟨1, "application/xml", ["applicaton/xml"]⟩),
            ("application/json",
              ⟨0, "application/json", ["application/json"]⟩)])
        ["text/plain"] =
      Except.ok (NegotiationResult.selected
        ⟨0, "application/json", ["application/json"]⟩ "application/json") ∧
    negotiateHandler
        (Negotiator.mk [⟨0, "application/json", ["application/json"]⟩] false
          [("application/json", ⟨0, "application/json", ["application/json"]⟩)])
        ["text/plain"] =
      Except.ok NegotiationResult.notAcceptable :=
  ⟨claim5_negotiation_selection.1
      [⟨0, "application/json", ["application/json"]⟩] false
      (Negotiator.mk [⟨0, "application/json", ["application/json"]⟩] false
        [("application/json", ⟨0, "application/json", ["application/json"]⟩)])
      ["application/json"] [("application/json", [])] [] "application/json"
      [] ⟨0, "application/json", ["application/json"]⟩
      (by rfl) (by rfl) (by rfl) (by simp) (by rfl),
   claim5_negotiation_selection.2.1
      ⟨0, "application/json", ["application/json"]⟩
      [⟨1, "application/xml", ["applicaton/xml"]⟩]
      (Negotiator.mk [⟨0, "application/json", ["application/json"]⟩,
          ⟨1, "application/xml", ["applicaton/xml"]⟩] true
        [("applicaton/xml", ⟨1, "application/xml", ["applicaton/xml"]⟩),
          ("application/json", ⟨0, "application/json", ["application/json"]⟩)])
      ["text/plain"] [("text/plain", [])]
      (by rfl) (by rfl) (by decide),
   claim5_negotiation_selection.2.2
      [⟨0, "application/json", ["application/json"]⟩]
      (Negotiator.mk [⟨0, "application/json", ["application/json"]⟩] false
        [("application/json", ⟨0, "application/json", ["application/json"]⟩)])
      ["text/plain"] [("text/plain", [])]
      (by rfl) (by rfl) (by decide)⟩

/-! ## The stable descending sort on `q` values -/

theorem mem_insertByQ {α : Type} (x z : ℚ × α) (l : List (ℚ × α)) :
    z ∈ insertByQ x l ↔ z = x ∨ z ∈ l := by
  induction l with
  | nil => simp [insertByQ]
  | cons y ys ih =>
    by_cases hy : y.1 < x.1
    · simp [insertByQ, hy]
    · simp only [insertByQ, if_neg hy, List.mem_cons, ih]
      tauto

theorem insertByQ_pairwise {α : Type} (x : ℚ × α) (l : List (ℚ × α))
    (hl : l.Pairwise (fun a b => b.1 ≤ a.1)) :
    (insertByQ x l).Pairwise (fun a b => b.1 ≤ a.1) := by
  induction l with
  | nil => simp [insertByQ]
  | cons y ys ih =>
    rw [List.pairwise_cons] at hl
    by_cases hy : y.1 < x.1
    · rw [show insertByQ x (y :: ys) = x :: y :: ys from by
        simp [insertByQ, hy]]
      rw [List.pairwise_cons]
      constructor
      · intro z hz
        rcases List.mem_cons.mp hz with rfl | hz'
        · exact le_of_lt hy
        · exact le_trans (hl.1 z hz') (le_of_lt hy)
      · rw [List.pairwise_cons]
        exact hl
    · rw [show insertByQ x (y :: ys) = y :: insertByQ x ys from by
        simp [insertByQ, hy]]
      rw [List.pairwise_cons]
      refine ⟨?_, ih hl.2⟩
      intro z hz
      rcases (mem_insertByQ x z ys).mp hz with rfl | hz'
      · exact not_lt.mp hy
      · exact hl.1 z hz'

theorem foldl_insertByQ_pairwise {α : Type} (l : List (ℚ × α)) :
    ∀ acc : List (ℚ × α), acc.Pairwise (fun a b => b.1 ≤ a.1) →
    (l.foldl (fun acc x => insertByQ x acc) acc).Pairwise
      (fun a b => b.1 ≤ a.1) := by
  induction l with
  | nil => intro acc h; exact h
  | cons x xs ih => intro acc h; exact ih _ (insertByQ_pairwise x acc h)

theorem filter_insertByQ {α : Type} (q : ℚ) (x : ℚ × α)
    (l : List (ℚ × α)) (hl : l.Pairwise (fun a b => b.1 ≤ a.1)) :
    (insertByQ x l).filter (fun e => decide (e.1 = q)) =
      if x.1 = q then l.filter (fun e => decide (e.1 = q)) ++ [x]
      else l.filter (fun e => decide (e.1 = q)) := by
  induction l with
  | nil =>
    by_cases hx : x.1 = q <;> simp [insertByQ, hx]
  | cons y ys ih =>
    rw [List.pairwise_cons] at hl
    by_cases hy : y.1 < x.1
    · rw [show insertByQ x (y :: ys) = x :: y :: ys from by
        simp [insertByQ, hy]]
      by_cases hx : x.1 = q
      · have hnone : (y :: ys).filter (fun e => decide (e.1 = q)) = [] := by
          rw [List.filter_eq_nil_iff]
          intro z hz
          rcases List.mem_cons.mp hz with rfl | hz'
          · simp only [decide_eq_true_eq]
            intro he
            exact absurd (hx ▸ hy) (by simp [he])
          · simp only [decide_eq_true_eq]
            intro he
            have := lt_of_le_of_lt (hl.1 z hz') hy
            rw [he, hx] at this
            exact lt_irrefl q this
        simp [List.filter_cons, hx, hnone]
      · simp [List.filter_cons, hx]
    · rw [show insertByQ x (y :: ys) = y :: insertByQ x ys from by
        simp [insertByQ, hy]]
      by_cases hyq : y.1 = q <;> by_cases hx : x.1 = q <;>
        simp [List.filter_cons, hyq, hx, ih hl.2]

theorem filter_foldl_insertByQ {α : Type} (q : ℚ) (l : List (ℚ × α)) :
    ∀ acc : List (ℚ × α), acc.Pairwise (fun a b => b.1 ≤ a.1) →
    (l.foldl (fun acc x => insertByQ x acc) acc).filter
        (fun e => decide (e.1 = q)) =
      acc.filter (fun e => decide (e.1 = q)) ++
        l.filter (fun e => decide (e.1 = q)) := by
  induction l with
  | nil => intro acc _; simp
  | cons x xs ih =>
    intro acc hacc
    show (xs.foldl (fun acc x => insertByQ x acc)
        (insertByQ x acc)).filter (fun e => decide (e.1 = q)) = _
    rw [ih (insertByQ x acc) (insertByQ_pairwise x acc hacc),
      filter_insertByQ q x acc hacc, List.filter_cons]
    by_cases hx : x.1 = q
    · rw [if_pos hx, if_pos (by simp [hx])]
      simp
    · rw [if_neg hx, if_neg (by simp [hx])]

theorem mem_foldl_insertByQ {α : Type} (l : List (ℚ × α)) (z : ℚ × α) :
    ∀ acc, z ∈ l.foldl (fun acc x => insertByQ x acc) acc →
      z ∈ acc ∨ z ∈ l := by
  induction l with
  | nil => intro acc hz'; exact Or.inl hz'
  | cons x xs ih =>
    intro acc hz'
    rcases ih (insertByQ x acc) hz' with h' | h'
    · rcases (mem_insertByQ x z acc).mp h' with rfl | h''
      · exact Or.inr (by simp)
      · exact Or.inl h''
    · exact Or.inr (by simp [h'])

theorem mem_sortDescByQ {α : Type} (l : List (ℚ × α)) (z : ℚ × α)
    (hz : z ∈ sortDescByQ l) : z ∈ l := by
  rcases mem_foldl_insertByQ l z [] hz with h' | h'
  · simp at h'
  · exact h'

theorem keyByQ_mem (entries : List AcceptEntry) :
    ∀ keyed : List (ℚ × AcceptEntry), keyByQ entries = Except.ok keyed →
    ∀ p ∈ keyed, qValue p.2.2 = Except.ok p.1 := by
  induction entries with
  | nil =>
    intro keyed hok p hp
    obtain rfl : ([] : List (ℚ × AcceptEntry)) = keyed := by
      simpa [keyByQ] using hok
    simp at hp
  | cons e es ih =>
    intro keyed hok p hp
    cases hq : qValue e.2 with
    | error u => simp [keyByQ, hq] at hok
    | ok q =>
      cases hk : keyByQ es with
      | error u => simp [keyByQ, hq, hk] at hok
      | ok ks =>
        obtain rfl : (q, e) :: ks = keyed := by
          simpa [keyByQ, hq, hk] using hok
        rcases List.mem_cons.mp hp with rfl | hp'
        · exact hq
        · exact ih ks hk p hp'

/-- C4: each header value is split on `,` into media-type specifications
and each specification on `;` into a type and a parameter mapping; the
sort is by `q` value in descending order (first two conjuncts: the sorted
output is pairwise descending and, restricted to any single `q` value,
identical to the input, which is stability), the `q` key defaults to `1`
when the parameter is absent, and sorted entries keep that order; the
claimed concrete example evaluates exactly as stated. -/
theorem claim4_accept_parse_sort :
    (∀ (α : Type) (l : List (ℚ × α)),
      (sortDescByQ l).Pairwise (fun a b => b.1 ≤ a.1)) ∧
    (∀ (α : Type) (l : List (ℚ × α)) (q : ℚ),
      (sortDescByQ l).filter (fun e => decide (e.1 = q)) =
        l.filter (fun e => decide (e.1 = q))) ∧
    (∀ args : List (String × String),
      alookup "q" args = none → qValue args = Except.ok 1) ∧
    (∀ entries out : List AcceptEntry,
      sortAccept entries = Except.ok out →
      out.Pairwise (fun a b => ∀ qa qb, qValue a.2 = Except.ok qa →
        qValue b.2 = Except.ok qb → qb ≤ qa)) ∧
    parseAccept ["text/plain;q=0.2", "text/html,text/csv;q=0.4"] =
      Except.ok [("text/html", []), ("text/csv", [("q", "0.4")]),
        ("text/plain", [("q", "0.2")])] := by
  refine ⟨?_, ?_, ?_, ?_, by rfl⟩
  · intro α l
    exact foldl_insertByQ_pairwise l [] List.Pairwise.nil
  · intro α l q
    have := filter_foldl_insertByQ q l [] List.Pairwise.nil
    simpa using this
  · intro args hq
    simp [qValue, hq]
  · intro entries out hok
    cases hk : keyByQ entries with
    | error u => simp [sortAccept, hk] at hok
    | ok keyed =>
      obtain rfl : (sortDescByQ keyed).map Prod.snd = out := by
        simpa [sortAccept, hk] using hok
      rw [List.pairwise_map]
      have hpw : (sortDescByQ keyed).Pairwise (fun a b => b.1 ≤ a.1) :=
        foldl_insertByQ_pairwise keyed [] List.Pairwise.nil
      refine hpw.imp_of_mem ?_
      intro a b hma hmb hab qa qb hqa hqb
      have ha' := keyByQ_mem entries keyed hk a (mem_sortDescByQ keyed a hma)
      have hb' := keyByQ_mem entries keyed hk b (mem_sortDescByQ keyed b hmb)
      rw [ha'] at hqa
      rw [hb'] at hqb
      obtain rfl : a.1 = qa := by simpa using hqa
      obtain rfl : b.1 = qb := by simpa using hqb
      exact hab

/-- Witness for C4: the `q` default on an empty parameter mapping and the
sortedness of the claimed example's `sortAccept` output. -/
theorem claim4_accept_parse_sort_witness :
    qValue [] = Except.ok 1 ∧
    ([("text/html", ([] : List (String × String))),
        ("text/csv", [("q", "0.4")]),
        ("text/plain", [("q", "0.2")])] : List AcceptEntry).Pairwise
      (fun a b => ∀ qa qb, qValue a.2 = Except.ok qa →
        qValue b.2 = Except.ok qb → qb ≤ qa) :=
  ⟨claim4_accept_parse_sort.2.2.1 [] (by rfl),
   claim4_accept_parse_sort.2.2.2.1
      [("text/plain", [("q", "0.2")]), ("text/html", []),
        ("text/csv", [("q", "0.4")])]
      [("text/html", []), ("text/csv", [("q", "0.4")]),
        ("text/plain", [("q", "0.2")])] (by rfl)⟩

/-- C10: `one(parser, n)` returns `parser(value[n])` exactly when the raw
value is a sequence that is not a textual scalar and has more than `n`
elements; on every other input — the `None` absence marker, a byte or text
string, a non-sequence object, or a sequence of length at most `n` — it
returns `None`, and the parser is not consulted: the result is the same
for every parser. -/
theorem claim10_one_combinator {α : Type} (func : PyVal → Option α)
    (n : Nat) :
    (∀ xs : List PyVal, n < xs.length →
      one func n (PyVal.pyseq xs) = func (xs.getD n PyVal.pynone)) ∧
    (∀ v : PyVal, (∀ xs, v = PyVal.pyseq xs → xs.length ≤ n) →
      one func n v = none ∧
        ∀ g : PyVal → Option α, one func n v = one g n v) := by
  constructor
  · intro xs hlen
    simp [one, isSequenceTypeNotText, pyElems, hlen]
  · intro v hv
    cases v with
    | pynone => exact ⟨rfl, fun g => rfl⟩
    | pybytes s =>
      exact ⟨by simp [one, isSequenceTypeNotText],
        fun g => by simp [one, isSequenceTypeNotText]⟩
    | pytext s =>
      exact ⟨by simp [one, isSequenceTypeNotText],
        fun g => by simp [one, isSequenceTypeNotText]⟩
    | pyother =>
      exact ⟨by simp [one, isSequenceTypeNotText],
        fun g => by simp [one, isSequenceTypeNotText]⟩
    | pyseq xs =>
      have hnot : ¬ n < xs.length := not_lt.mpr (hv xs rfl)
      exact ⟨by simp [one, isSequenceTypeNotText, pyElems, hnot],
        fun g => by simp [one, isSequenceTypeNotText, pyElems, hnot]⟩

/-- Witness for C10: the identity parser on a one-element sequence at
index 0, and on a bare text scalar. -/
theorem claim10_one_combinator_witness :
    (one (fun v => some v) 0 (PyVal.pyseq [PyVal.pytext "a"]) =
      (fun v => some v) ([PyVal.pytext "a"].getD 0 PyVal.pynone)) ∧
    (one (fun v => some v) 0 (PyVal.pytext "a") = none ∧
      ∀ g : PyVal → Option PyVal,
        one (fun v => some v) 0 (PyVal.pytext "a") =
          one g 0 (PyVal.pytext "a")) :=
  ⟨(claim10_one_combinator (fun v => some v) 0).1 [PyVal.pytext "a"]
      (by decide),
   (claim10_one_combinator (fun v => some v) 0).2 (PyVal.pytext "a")
      (fun xs h => PyVal.noConfusion h)⟩

end Spinneret
